import Mathlib

/-!
Verification of `scripts/scan-java-files.js` (Java file scanner).

The scanner classifies Java source files by configured marker annotations and
by direct-or-transitive interface implementation.  The JavaScript source
operates on concrete syntax trees produced by the external `java-parser`
package; the parser itself is out of scope and is modelled at its interface
boundary: we embed exactly the CST shape the scanner navigates.

Encoding conventions for the CST embedding:
* a `children.X` key of a CST node is an array; in real CSTs the key is
  present exactly when the array is non-empty, so optional arrays are
  modelled as plain lists with `[]` standing for an absent key;
* token nodes are modelled by their `image` string;
* a dotted qualified reference `p1. ... .pk.N` appears as a `typeName` node
  with `Identifier = [N]` and `packageOrTypeName` holding `[p1, ..., pk]`
  (the JLS shape `TypeName: PackageOrTypeName . Identifier` that the
  scanner's two-branch navigation reads); a bare reference `N` has
  `Identifier = [N]` and no `packageOrTypeName` child.
-/

namespace JavaScan

/-- CST `typeName` node as navigated by the scanner: the `Identifier` child
token images and the token images under `packageOrTypeName[0].children.Identifier`
(`[]` when the `packageOrTypeName` child is absent). -/
structure TypeName where
  identifier : List String
  packageOrTypeName : List String
deriving DecidableEq, Repr

/-- CST `classModifier` node as navigated by the scanner: whether an
`abstractKeyword` child is present, and the `typeName` nodes of the
`annotation` children. -/
structure Modifier where
  abstractKeyword : Bool
  annotations : List TypeName
deriving DecidableEq, Repr

/-- Body of a `classDeclaration` / `interfaceDeclaration` CST node:
either a `normalClassDeclaration` (with its `typeIdentifier` image and the
`typeName`s of its `classImplements` interface type list), or a
`normalInterfaceDeclaration` (with its `typeIdentifier` image and the
`typeName`s of its `interfaceExtends` interface type list), or another
declaration form (e.g. an enum) carrying neither child. -/
inductive DeclBody where
  | classDecl (typeIdentifier : Option String) (classImplements : List TypeName)
  | interfaceDecl (typeIdentifier : Option String) (interfaceExtends : List TypeName)
  | otherDecl
deriving DecidableEq, Repr

/-- A `classDeclaration` or `interfaceDeclaration` CST node as returned by
`getTypeDeclaration`: its `classModifier` children and its body. -/
structure DeclNode where
  classModifier : List Modifier
  body : DeclBody
deriving DecidableEq, Repr

/-- One discovered `.java` file: its path and the top-level declaration node
obtained from `parseJavaFile` followed by `getTypeDeclaration`.  `none`
covers both a parse error (`parseJavaFile` returned null) and a compilation
unit with no class-or-interface top-level declaration; the scanner treats
both by skipping the file. -/
structure JavaFile where
  path : String
  decl : Option DeclNode
deriving DecidableEq, Repr

/-- Scanner configuration as held by the `JavaFileScanner` constructor. -/
structure ScanConfig where
  annotations : List String
  interfaces : List String
  excludeAbstract : Bool
deriving DecidableEq, Repr

/-- The structured result returned by `scan`. -/
structure ScanResult where
  count : Nat
  files : List String
deriving DecidableEq, Repr

/-- JavaScript `parts.join('.')` on an array of strings. -/
def joinDot : List String → String
  | [] => ""
  | [p] => p
  | p :: q :: rest => p ++ "." ++ joinDot (q :: rest)

/-- The entries the scanner pushes for one `typeName` node: the image of
`children.Identifier[0]` when present, then the dot-joined images under
`children.packageOrTypeName[0].children.Identifier` when that child is
present.  This navigation is shared verbatim by `getAnnotations`,
`getImplementedInterfaces` and `getExtendedInterfaces` in the source. -/
def typeNameRefs (tn : TypeName) : List String :=
  (match tn.identifier.head? with
   | some i => [i]
   | none => []) ++
  (match tn.packageOrTypeName with
   | [] => []
   | parts => [joinDot parts])

/-- Source `getTypeName`: the `typeIdentifier` image of a `normalClassDeclaration`
or `normalInterfaceDeclaration`, else null. -/
def getTypeName (node : DeclNode) : Option String :=
  match node.body with
  | .classDecl tid _ => tid
  | .interfaceDecl tid _ => tid
  | .otherDecl => none

/-- Source `isAbstract`: true iff some `classModifier` child has an
`abstractKeyword` child. -/
def isAbstract (node : DeclNode) : Bool :=
  node.classModifier.any (fun m => m.abstractKeyword)

/-- Source `getAnnotations`: for every annotation on every `classModifier`, push
its `typeName` entries. -/
def getAnnotations (node : DeclNode) : List String :=
  node.classModifier.flatMap (fun m => m.annotations.flatMap typeNameRefs)

/-- Source `getImplementedInterfaces`: the `typeName` entries of the
`classImplements` clause of a `normalClassDeclaration`; `[]` for any other
node (in particular for every interface declaration). -/
def getImplementedInterfaces (node : DeclNode) : List String :=
  match node.body with
  | .classDecl _ impls => impls.flatMap typeNameRefs
  | _ => []

/-- Source `getExtendedInterfaces`: the `typeName` entries of the
`interfaceExtends` clause of a `normalInterfaceDeclaration`.  In the source
this function is defined but never called. -/
def getExtendedInterfaces (node : DeclNode) : List String :=
  match node.body with
  | .interfaceDecl _ exts => exts.flatMap typeNameRefs
  | _ => []

/-- Source `findClassDeclaration`: scan the file list in order and return the first
file whose declaration's type name equals `className`, together with its
path. -/
def findClassDeclaration (className : String) : List JavaFile → Option (DeclNode × String)
  | [] => none
  | f :: rest =>
    match f.decl with
    | some node =>
      match getTypeName node with
      | some tn =>
        if tn = className then some (node, f.path)
        else findClassDeclaration className rest
      | none => findClassDeclaration className rest
    | none => findClassDeclaration className rest

/-- The `nodeKey` template literal of `implementsTargetInterface`:
the type name, with JavaScript-falsy values (null and the empty string)
replaced by `"unknown"`. -/
def nodeKey (node : DeclNode) : String :=
  match getTypeName node with
  | some s => if s = "" then "unknown" else s
  | none => "unknown"

/-- The for-loop of `implementsTargetInterface` over the directly
implemented interface names: resolve each name; on success recurse
(via `recurse`, which threads the `visited` set exactly as the mutated
JavaScript `Set` does) and return true as soon as a recursive call does. -/
def implLoop (recurse : DeclNode → List String → Option (Bool × List String))
    (files : List JavaFile) : List String → List String → Option (Bool × List String)
  | [], v => some (false, v)
  | ifaceName :: rest, v =>
    match findClassDeclaration ifaceName files with
    | none => implLoop recurse files rest v
    | some (child, _) =>
      match recurse child v with
      | none => none
      | some (true, v') => some (true, v')
      | some (false, v') => implLoop recurse files rest v'

/-- Source `implementsTargetInterface` made total with a fuel parameter that
bounds the depth of the JavaScript recursion; `none` means the fuel ran
out.  The recursion adds one fresh `nodeKey` to `visited` per level, so the
depth is bounded by the number of distinct keys; `implTI_fuel_isSome` below
proves that `files.length + 2` units of fuel always suffice, which is the
termination argument for the original unbounded recursion. -/
def implementsTargetInterfaceFuel : Nat → DeclNode → String → List JavaFile →
    List String → Option (Bool × List String)
  | 0, _, _, _, _ => none
  | fuel + 1, node, target, files, visited =>
    let key := nodeKey node
    if key ∈ visited then some (false, visited)
    else
      let v := key :: visited
      let implemented := getImplementedInterfaces node
      if target ∈ implemented then some (true, v)
      else implLoop (fun child w => implementsTargetInterfaceFuel fuel child target files w)
        files implemented v

/-- Top-level `implementsTargetInterface` as called by
`hasConfiguredInterface`: fresh empty `visited` set, sufficient fuel. -/
def implementsTargetInterface (node : DeclNode) (target : String)
    (files : List JavaFile) : Bool :=
  match implementsTargetInterfaceFuel (files.length + 2) node target files [] with
  | some (b, _) => b
  | none => false

/-- JavaScript `a.split('.')` followed by taking the last element, as in the
`simpleAnnotationNames` computation of `hasConfiguredAnnotation`.  `split`
is modelled at the character-list level; the default `""` of `getLastD` is
never used since splitting always yields a non-empty list. -/
def lastComponent (a : String) : String :=
  ((a.data.splitOn '.').map (fun cs => String.mk cs)).getLastD ""

/-- Source `hasConfiguredAnnotation`: false when no annotation is configured;
otherwise some extracted annotation entry equals the last dot-component of
a configured name, or equals a configured name exactly. -/
def hasConfiguredAnnotation (annotationNames : List String) (node : DeclNode) : Bool :=
  if annotationNames.isEmpty then false
  else
    let nodeAnnotationEntries := getAnnotations node
    let simpleAnnotationNames := annotationNames.map lastComponent
    nodeAnnotationEntries.any (fun ann =>
      simpleAnnotationNames.contains ann || annotationNames.contains ann)

/-- Source `hasConfiguredInterface`: false when no interface is configured;
otherwise true iff some configured target is transitively implemented. -/
def hasConfiguredInterface (interfaceNames : List String) (node : DeclNode)
    (files : List JavaFile) : Bool :=
  if interfaceNames.isEmpty then false
  else interfaceNames.any (fun target => implementsTargetInterface node target files)

/-- JavaScript `Array.prototype.sort()`'s default string comparison: code
units are compared pairwise, a proper prefix sorts first.  (Characters are
compared by Unicode scalar value, which coincides with the code-unit order
on the Basic Multilingual Plane.) -/
def strLeb : List Char → List Char → Bool
  | [], _ => true
  | _ :: _, [] => false
  | a :: as, b :: bs =>
    if a.toNat < b.toNat then true
    else if b.toNat < a.toNat then false
    else strLeb as bs

/-- Strict version of `strLeb`, for stating "lexicographically first". -/
def strLtb (a b : String) : Bool :=
  strLeb a.data b.data && !(strLeb b.data a.data)

/-- Insert a string into a list in front of the first element it compares
less-or-equal to. -/
def sortInsert (a : String) : List String → List String
  | [] => [a]
  | b :: bs => if strLeb a.data b.data then a :: b :: bs else b :: sortInsert a bs

/-- JavaScript `Array.prototype.sort()` on an array of strings, modelled as
insertion sort.  The default comparator is the total order `strLeb`, under
which every correct sort produces the same output, so the choice of sorting
algorithm is immaterial. -/
def sortStrings : List String → List String
  | [] => []
  | a :: as => sortInsert a (sortStrings as)

/-- The per-file decision of the `scan` loop: skip files without a
declaration; skip abstract declarations when `excludeAbstract` is set;
otherwise match on annotations or interfaces. -/
def matchesFile (cfg : ScanConfig) (javaFiles : List JavaFile) (f : JavaFile) : Bool :=
  match f.decl with
  | none => false
  | some typeNode =>
    if cfg.excludeAbstract && isAbstract typeNode then false
    else hasConfiguredAnnotation cfg.annotations typeNode
      || hasConfiguredInterface cfg.interfaces typeNode javaFiles

/-- Source `scan`: collect the paths of matching files in discovery order, then
report their number and the sorted path list (JavaScript `Array.sort()`
with the default lexicographic comparator). -/
def scan (cfg : ScanConfig) (javaFiles : List JavaFile) : ScanResult :=
  let matchedFiles := (javaFiles.filter (fun f => matchesFile cfg javaFiles f)).map
    (fun f => f.path)
  { count := matchedFiles.length
    files := sortStrings matchedFiles }

/-- Modelled from the spec: path absoluteness is decided by the host
platform's path semantics, which are outside the scanner's source; per the
POSIX convention used throughout the spec an absolute path is one that
starts with a slash. -/
def isAbsolutePath (p : String) : Bool :=
  match p.data with
  | '/' :: _ => true
  | _ => false

/-- The node keys that a traversal can ever insert into `visited` when the
recursion only descends into declarations resolved from `files`. -/
def declKeys (files : List JavaFile) : List String :=
  (files.filterMap JavaFile.decl).map nodeKey

/-- A successful lookup returns a declaration of one of the files, with its
path, and the declaration's type name is the searched name. -/
theorem findClassDeclaration_mem {className : String} :
    ∀ {files : List JavaFile} {d : DeclNode} {p : String},
      findClassDeclaration className files = some (d, p) →
      ∃ f ∈ files, f.path = p ∧ f.decl = some d ∧ getTypeName d = some className := by
  intro files
  induction files with
  | nil => intro d p h; simp [findClassDeclaration] at h
  | cons f rest ih =>
    intro d p h
    simp only [findClassDeclaration] at h
    rcases hfd : f.decl with _ | node
    · simp only [hfd] at h
      obtain ⟨g, hg, hrest⟩ := ih h
      exact ⟨g, List.mem_cons_of_mem f hg, hrest⟩
    · simp only [hfd] at h
      rcases hg : getTypeName node with _ | tn
      · simp only [hg] at h
        obtain ⟨g, hgm, hrest⟩ := ih h
        exact ⟨g, List.mem_cons_of_mem f hgm, hrest⟩
      · simp only [hg] at h
        by_cases htc : tn = className
        · rw [if_pos htc] at h
          simp only [Option.some.injEq, Prod.mk.injEq] at h
          obtain ⟨hd, hp⟩ := h
          exact ⟨f, by simp, hp, by rw [hfd, hd], by rw [← hd, hg, htc]⟩
        · rw [if_neg htc] at h
          obtain ⟨g, hgm, hrest⟩ := ih h
          exact ⟨g, List.mem_cons_of_mem f hgm, hrest⟩

/-- The key of a declaration held by one of the files is in `declKeys`. -/
theorem nodeKey_mem_declKeys {files : List JavaFile} {d : DeclNode}
    (hd : ∃ f ∈ files, f.decl = some d) : nodeKey d ∈ declKeys files := by
  simp only [declKeys, List.mem_map, List.mem_filterMap]
  exact ⟨d, hd, rfl⟩

/-- The visited set passed through `implLoop` only grows (the JavaScript
`Set` is only ever added to). -/
theorem implLoop_visited_subset
    {recurse : DeclNode → List String → Option (Bool × List String)}
    (hrec : ∀ c w b w', recurse c w = some (b, w') → w ⊆ w')
    {files : List JavaFile} :
    ∀ {l v b v'}, implLoop recurse files l v = some (b, v') → v ⊆ v' := by
  intro l
  induction l with
  | nil =>
    intro v b v' h
    simp only [implLoop, Option.some.injEq, Prod.mk.injEq] at h
    exact h.2 ▸ List.Subset.refl v
  | cons i rest ih =>
    intro v b v' h
    simp only [implLoop] at h
    rcases hfind : findClassDeclaration i files with _ | ⟨child, cpath⟩
    · simp only [hfind] at h
      exact ih h
    · simp only [hfind] at h
      rcases hrw : recurse child v with _ | ⟨b1, w'⟩
      · simp only [hrw] at h
        exact absurd h (by simp)
      · simp only [hrw] at h
        cases b1
        · exact List.Subset.trans (hrec child v false w' hrw) (ih h)
        · simp only [Option.some.injEq, Prod.mk.injEq] at h
          exact h.2 ▸ hrec child v true w' hrw

/-- The visited set returned by the fuelled resolver contains the one it
was given. -/
theorem implTIFuel_visited_subset :
    ∀ (fuel : Nat) {node target files visited b v'},
      implementsTargetInterfaceFuel fuel node target files visited = some (b, v') →
      visited ⊆ v' := by
  intro fuel
  induction fuel with
  | zero => intro node target files visited b v' h; simp [implementsTargetInterfaceFuel] at h
  | succ f ih =>
    intro node target files visited b v' h
    simp only [implementsTargetInterfaceFuel] at h
    split at h
    · simp only [Option.some.injEq, Prod.mk.injEq] at h
      exact h.2 ▸ List.Subset.refl visited
    · split at h
      · simp only [Option.some.injEq, Prod.mk.injEq] at h
        exact h.2 ▸ List.subset_cons_self _ _
      · exact List.Subset.trans (List.subset_cons_self _ _)
          (implLoop_visited_subset (fun c w b w' hr => ih hr) h)

/-- Fuel sufficiency for the loop: if the recursion at `fuel` is total on
every input whose unvisited key measure is below `fuel`, then the loop
completes whenever the keys of `files` not yet visited number below
`fuel`. -/
theorem implLoop_isSome {files : List JavaFile} {target : String} (fuel : Nat)
    (IH : ∀ (node' : DeclNode) (visited' : List String),
      (((declKeys files).toFinset ∪ {nodeKey node'}) \ visited'.toFinset).card < fuel →
      (implementsTargetInterfaceFuel fuel node' target files visited').isSome = true) :
    ∀ (l : List String) (v : List String),
      ((declKeys files).toFinset \ v.toFinset).card < fuel →
      (implLoop (fun child w => implementsTargetInterfaceFuel fuel child target files w)
        files l v).isSome = true := by
  intro l
  induction l with
  | nil => intro v _; simp [implLoop]
  | cons i rest ih =>
    intro v hv
    simp only [implLoop]
    split
    · exact ih v hv
    · rename_i child cpath hfind
      have hmem : ∃ f ∈ files, f.decl = some child := by
        obtain ⟨f, hf1, _, hf3, _⟩ := findClassDeclaration_mem hfind
        exact ⟨f, hf1, hf3⟩
      have hunion : (declKeys files).toFinset ∪ {nodeKey child} = (declKeys files).toFinset :=
        Finset.union_eq_left.mpr
          (Finset.singleton_subset_iff.mpr (List.mem_toFinset.mpr (nodeKey_mem_declKeys hmem)))
      have h1 : (implementsTargetInterfaceFuel fuel child target files v).isSome = true :=
        IH child v (by rw [hunion]; exact hv)
      obtain ⟨⟨b, w⟩, hw⟩ := Option.isSome_iff_exists.mp h1
      rw [hw]
      cases b
      · have hsub : v ⊆ w := implTIFuel_visited_subset fuel hw
        apply ih w
        have hss : (declKeys files).toFinset \ w.toFinset ⊆
            (declKeys files).toFinset \ v.toFinset := by
          apply Finset.sdiff_subset_sdiff (le_refl _)
          intro x hx
          exact List.mem_toFinset.mpr (hsub (List.mem_toFinset.mp hx))
        exact lt_of_le_of_lt (Finset.card_le_card hss) hv
      · simp

/-- Fuel sufficiency: the fuelled resolver completes whenever the fuel
exceeds the number of keys it can still visit.  This is the termination
argument of the JavaScript recursion: each level of recursion permanently
consumes one fresh key from a finite space. -/
theorem implTIFuel_isSome :
    ∀ (fuel : Nat) (node : DeclNode) (target : String) (files : List JavaFile)
      (visited : List String),
      (((declKeys files).toFinset ∪ {nodeKey node}) \ visited.toFinset).card < fuel →
      (implementsTargetInterfaceFuel fuel node target files visited).isSome = true := by
  intro fuel
  induction fuel with
  | zero => intro node target files visited h; exact absurd h (Nat.not_lt_zero _)
  | succ f ih =>
    intro node target files visited h
    simp only [implementsTargetInterfaceFuel]
    split
    · simp
    · rename_i hkv
      split
      · simp
      · apply implLoop_isSome f (fun n' v' hh => ih n' target files v' hh)
        have hk : nodeKey node ∈
            ((declKeys files).toFinset ∪ {nodeKey node}) \ visited.toFinset := by
          rw [Finset.mem_sdiff]
          refine ⟨Finset.mem_union_right _ (Finset.mem_singleton_self _), ?_⟩
          rw [List.mem_toFinset]
          exact hkv
        have hge : 0 < (((declKeys files).toFinset ∪ {nodeKey node}) \ visited.toFinset).card :=
          Finset.card_pos.mpr ⟨_, hk⟩
        have hsub : (declKeys files).toFinset \ (nodeKey node :: visited).toFinset ⊆
            (((declKeys files).toFinset ∪ {nodeKey node}) \ visited.toFinset).erase
              (nodeKey node) := by
          intro x hx
          simp only [List.toFinset_cons, Finset.mem_sdiff, Finset.mem_insert,
            Finset.mem_erase, Finset.mem_union, Finset.mem_singleton,
            List.mem_toFinset, not_or] at hx ⊢
          exact ⟨hx.2.1, Or.inl hx.1, hx.2.2⟩
        have hcard := Finset.card_le_card hsub
        rw [Finset.card_erase_of_mem hk] at hcard
        omega

/-- Termination of the top-level resolver call: with the fuel used by
`implementsTargetInterface`, the recursion always completes, for every file
set (cyclic reference graphs included), every node and every target. -/
theorem implTIFuel_top_isSome (files : List JavaFile) (node : DeclNode) (target : String) :
    (implementsTargetInterfaceFuel (files.length + 2) node target files []).isSome = true := by
  apply implTIFuel_isSome
  have h1 : ((declKeys files).toFinset ∪ {nodeKey node}).card ≤
      (declKeys files).toFinset.card + 1 := by
    simpa using Finset.card_union_le (declKeys files).toFinset {nodeKey node}
  have h2 : (declKeys files).toFinset.card ≤ (declKeys files).length :=
    (declKeys files).toFinset_card_le
  have h3 : (declKeys files).length ≤ files.length := by
    rw [declKeys, List.length_map]
    exact List.length_filterMap_le _ _
  rw [List.toFinset_nil, Finset.sdiff_empty]
  omega

/-- Membership in an insertion step. -/
theorem mem_sortInsert {x a : String} :
    ∀ {l : List String}, x ∈ sortInsert a l ↔ x = a ∨ x ∈ l := by
  intro l
  induction l with
  | nil => simp [sortInsert]
  | cons b bs ih =>
    simp only [sortInsert]
    split
    · simp
    · simp only [List.mem_cons, ih]
      tauto

/-- Sorting does not change membership. -/
theorem mem_sortStrings {x : String} :
    ∀ {l : List String}, x ∈ sortStrings l ↔ x ∈ l := by
  intro l
  induction l with
  | nil => simp [sortStrings]
  | cons a as ih => simp [sortStrings, mem_sortInsert, ih]

/-- Characterisation of membership in the scan output. -/
theorem mem_scan_files {cfg : ScanConfig} {files : List JavaFile} {p : String} :
    p ∈ (scan cfg files).files ↔
      ∃ f ∈ files, f.path = p ∧ matchesFile cfg files f = true := by
  simp only [scan, mem_sortStrings, List.mem_map, List.mem_filter]
  constructor
  · rintro ⟨f, ⟨hf, hm⟩, hp⟩
    exact ⟨f, hf, hp, hm⟩
  · rintro ⟨f, hf, hp, hm⟩
    exact ⟨f, ⟨hf, hm⟩, hp⟩

/-- The data of a dot-join is the character-level intercalation. -/
theorem joinDot_data :
    ∀ (parts : List String), parts ≠ [] →
      (joinDot parts).data = [ '.' ].intercalate (parts.map String.data) := by
  intro parts
  induction parts with
  | nil => intro h; exact absurd rfl h
  | cons p rest ih =>
    intro _
    cases rest with
    | nil => simp [joinDot, List.intercalate]
    | cons q t =>
      have ihr := ih (by simp)
      simp only [joinDot, List.map_cons]
      rw [show [ '.' ].intercalate (p.data :: q.data :: t.map String.data) =
          p.data ++ '.' :: [ '.' ].intercalate (q.data :: t.map String.data) by
        simp [List.intercalate, List.intersperse]]
      rw [← List.map_cons, ← ihr]
      show (p ++ "." ++ joinDot (q :: t)).data = p.data ++ '.' :: (joinDot (q :: t)).data
      simp [String.data_append]

/-- The last dot-component of a dot-join of dot-free parts is the last
part.  This is the key fact connecting the `simpleAnnotationNames`
computation to full qualified names. -/
theorem lastComponent_joinDot (parts : List String) (hne : parts ≠ [])
    (hdot : ∀ p ∈ parts, '.' ∉ p.data) :
    lastComponent (joinDot parts) = parts.getLastD "" := by
  rw [lastComponent, joinDot_data parts hne]
  rw [List.splitOn_intercalate (parts.map String.data) '.'
    (by intro l hl; obtain ⟨q, hq, rfl⟩ := List.mem_map.mp hl; exact hdot q hq)
    (by simpa using hne)]
  rw [List.map_map]
  have : (fun cs => String.mk cs) ∘ String.data = id := by
    funext s
    rfl
  rw [this, List.map_id]

/-- Entries extracted from an annotation on some modifier are among the
node's extracted annotation entries. -/
theorem typeNameRefs_subset_getAnnotations {node : DeclNode} {m : Modifier} {tn : TypeName}
    (hm : m ∈ node.classModifier) (ht : tn ∈ m.annotations) {x : String}
    (hx : x ∈ typeNameRefs tn) : x ∈ getAnnotations node := by
  simp only [getAnnotations, List.mem_flatMap]
  exact ⟨m, hm, tn, ht, hx⟩

/-- Inserting an element into a list preserves the membership of others. -/
theorem mem_append_insert {α : Type _} {a x : α} {l₁ l₂ : List α} (h : a ∈ l₁ ++ l₂) :
    a ∈ l₁ ++ x :: l₂ := by
  rcases List.mem_append.mp h with h1 | h2
  · exact List.mem_append.mpr (Or.inl h1)
  · exact List.mem_append.mpr (Or.inr (List.mem_cons_of_mem x h2))

/-- Bridge between the Boolean `contains` used by the matcher (JavaScript
`includes`) and list membership. -/
theorem contains_iff_mem {l : List String} {a : String} : l.contains a = true ↔ a ∈ l :=
  List.elem_iff

/-- Adding a configured annotation name never turns a matching declaration
into a non-matching one. -/
theorem hasConfiguredAnnotation_mono {l₁ l₂ : List String} {x : String} {node : DeclNode}
    (h : hasConfiguredAnnotation (l₁ ++ l₂) node = true) :
    hasConfiguredAnnotation (l₁ ++ x :: l₂) node = true := by
  simp only [ hasConfiguredAnnotation] at h ⊢
  by_cases he : (l₁ ++ l₂).isEmpty
  · rw [if_pos he] at h
    exact absurd h (by simp)
  · rw [if_neg he] at h
    rw [if_neg (by simp [List.isEmpty_iff])]
    simp only [List.any_eq_true, Bool.or_eq_true, contains_iff_mem,
      List.mem_map] at h ⊢
    obtain ⟨ann, hann, hmatch⟩ := h
    refine ⟨ann, hann, ?_⟩
    rcases hmatch with ⟨a, ha, hla⟩ | hfull
    · exact Or.inl ⟨a, mem_append_insert ha, hla⟩
    · exact Or.inr (mem_append_insert hfull)

/-- Adding a configured interface name never turns a matching declaration
into a non-matching one. -/
theorem hasConfiguredInterface_mono {l₁ l₂ : List String} {x : String} {node : DeclNode}
    {files : List JavaFile}
    (h : hasConfiguredInterface (l₁ ++ l₂) node files = true) :
    hasConfiguredInterface (l₁ ++ x :: l₂) node files = true := by
  simp only [ hasConfiguredInterface] at h ⊢
  by_cases he : (l₁ ++ l₂).isEmpty
  · rw [if_pos he] at h
    exact absurd h (by simp)
  · rw [if_neg he] at h
    rw [if_neg (by simp [List.isEmpty_iff])]
    simp only [List.any_eq_true] at h ⊢
    obtain ⟨t, ht, hit⟩ := h
    exact ⟨t, mem_append_insert ht, hit⟩

/-- Per-file monotonicity in the configured annotation list. -/
theorem matchesFile_mono_ann {l₁ l₂ ints : List String} {x : String} {e : Bool}
    {files : List JavaFile} {f : JavaFile}
    (h : matchesFile ⟨l₁ ++ l₂, ints, e⟩ files f = true) :
    matchesFile ⟨l₁ ++ x :: l₂, ints, e⟩ files f = true := by
  simp only [matchesFile] at h ⊢
  rcases hfd : f.decl with _ | node
  · simp [hfd] at h
  · simp only [hfd] at h ⊢
    split at h
    · exact absurd h (by simp)
    · rename_i hcond
      rw [if_neg hcond]
      rcases Bool.or_eq_true .. ▸ h with ha | hi
      · exact Bool.or_eq_true .. ▸ Or.inl (hasConfiguredAnnotation_mono ha)
      · exact Bool.or_eq_true .. ▸ Or.inr hi

/-- Per-file monotonicity in the configured interface list. -/
theorem matchesFile_mono_int {anns l₁ l₂ : List String} {x : String} {e : Bool}
    {files : List JavaFile} {f : JavaFile}
    (h : matchesFile ⟨anns, l₁ ++ l₂, e⟩ files f = true) :
    matchesFile ⟨anns, l₁ ++ x :: l₂, e⟩ files f = true := by
  simp only [matchesFile] at h ⊢
  rcases hfd : f.decl with _ | node
  · simp [hfd] at h
  · simp only [hfd] at h ⊢
    split at h
    · exact absurd h (by simp)
    · rename_i hcond
      rw [if_neg hcond]
      rcases Bool.or_eq_true .. ▸ h with ha | hi
      · exact Bool.or_eq_true .. ▸ Or.inl ha
      · exact Bool.or_eq_true .. ▸ Or.inr (hasConfiguredInterface_mono hi)

/-- A matching file under abstract exclusion holds a non-abstract
declaration. -/
theorem matchesFile_not_abstract {cfg : ScanConfig} {files : List JavaFile} {f : JavaFile}
    (he : cfg.excludeAbstract = true) (h : matchesFile cfg files f = true) :
    ∃ d, f.decl = some d ∧ isAbstract d = false := by
  simp only [matchesFile] at h
  rcases hfd : f.decl with _ | node
  · simp [hfd] at h
  · simp only [hfd] at h
    refine ⟨node, rfl, ?_⟩
    by_cases hab : isAbstract node
    · rw [he, hab] at h
      simp at h
    · simpa using hab

/-- Reflexivity of the code-unit comparison. -/
theorem strLeb_refl : ∀ l : List Char, strLeb l l = true := by
  intro l
  induction l with
  | nil => rfl
  | cons a as ih =>
    simp only [strLeb]
    rw [if_neg (lt_irrefl a.toNat), if_neg (lt_irrefl a.toNat)]
    exact ih

/-- A node whose direct `implements` extraction is empty resolves to false
immediately: the key is fresh, no direct hit, and the loop body is empty. -/
theorem implTIFuel_no_edges (fuel : Nat) (node : DeclNode) (target : String)
    (files : List JavaFile) (h : getImplementedInterfaces node = []) :
    implementsTargetInterfaceFuel (fuel + 1) node target files [] =
      some (false, [nodeKey node]) := by
  simp [implementsTargetInterfaceFuel, h, implLoop]

/-! ### Concrete fixtures used by counterexamples and witnesses -/

/-- Interface `Base` (no extends clause), from `Base.java`. -/
def baseNode : DeclNode := ⟨[], .interfaceDecl (some "Base") []⟩

/-- Interface `Mid extends Base`, from `Mid.java`. -/
def midNode : DeclNode := ⟨[], .interfaceDecl (some "Mid") [⟨["Base"], []⟩]⟩

/-- Non-abstract class `Impl implements Mid`, from `Impl.java`. -/
def implNode : DeclNode := ⟨[], .classDecl (some "Impl") [⟨["Mid"], []⟩]⟩

/-- The file set of the transitive chain scenario. -/
def chainFiles : List JavaFile :=
  [⟨"Base.java", some baseNode⟩, ⟨"Mid.java", some midNode⟩, ⟨"Impl.java", some implNode⟩]

/-- Configuration with target interfaces `["Base"]` and defaults. -/
def chainConfig : ScanConfig := ⟨[], ["Base"], true⟩

/-- A class declaration carrying the single dotted annotation
`@com.example.Service`. -/
def dottedAnnNode : DeclNode :=
  ⟨[⟨false, [⟨["Service"], ["com", "example"]⟩]⟩], .classDecl (some "C") []⟩

/-- Abstract class `Abs` annotated `@Service`. -/
def absNode : DeclNode := ⟨[⟨true, [⟨["Service"], []⟩]⟩], .classDecl (some "Abs") []⟩

/-- Non-abstract class `Ok` annotated `@Service`. -/
def okNode : DeclNode := ⟨[⟨false, [⟨["Service"], []⟩]⟩], .classDecl (some "Ok") []⟩

/-- File set with one abstract and one concrete annotated class. -/
def mixedFiles : List JavaFile :=
  [⟨"Abs.java", some absNode⟩, ⟨"Ok.java", some okNode⟩]

/-- Class `Foo implements IA`, found at path `b/Foo.java`. -/
def fooNodeB : DeclNode := ⟨[], .classDecl (some "Foo") [⟨["IA"], []⟩]⟩

/-- Class `Foo implements IB`, found at path `a/Foo.java`. -/
def fooNodeA : DeclNode := ⟨[], .classDecl (some "Foo") [⟨["IB"], []⟩]⟩

/-- Two files sharing the simple name `Foo`, discovered in an order that is
not lexicographic (as a filesystem walk may yield). -/
def dupFiles : List JavaFile :=
  [⟨"b/Foo.java", some fooNodeB⟩, ⟨"a/Foo.java", some fooNodeA⟩]

/-- The same two `Foo` files in ascending path order. -/
def sortedDupFiles : List JavaFile :=
  [⟨"a/Foo.java", some fooNodeA⟩, ⟨"b/Foo.java", some fooNodeB⟩]

/-- Interface `X extends Y`, half of a direct reference cycle. -/
def cycX : DeclNode := ⟨[], .interfaceDecl (some "X") [⟨["Y"], []⟩]⟩

/-- Interface `Y extends X`, the other half of the cycle. -/
def cycY : DeclNode := ⟨[], .interfaceDecl (some "Y") [⟨["X"], []⟩]⟩

/-- The cyclic two-interface file set. -/
def cycFiles : List JavaFile := [⟨"X.java", some cycX⟩, ⟨"Y.java", some cycY⟩]

/-- One file holding a concrete class annotated `@Svc`. -/
def monoFiles : List JavaFile :=
  [⟨"A.java", some ⟨[⟨false, [⟨["Svc"], []⟩]⟩], .classDecl (some "A") []⟩⟩]

/-- The annotated class produced by scanning the default relative
`scanDir` of `./src/main/java`: its discovered path is relative. -/
def relFiles : List JavaFile :=
  [⟨"src/main/java/A.java", some okNode⟩]

/-- Configuration matching the `@Service` annotation. -/
def svcConfig : ScanConfig := ⟨["Service"], [], true⟩

/-! ### Claim theorems -/

/-- C1: the claim says that for interface `Base`, interface `Mid extends
Base` and class `Impl implements Mid`, a scan targeting `["Base"]` includes
`Impl`'s file, the extends clause being traversed like an implements
clause.  The code does not do this: `implementsTargetInterface` only ever
follows `getImplementedInterfaces` (empty for every interface node), and
`getExtendedInterfaces` — which does extract the `Mid → Base` edge — is
never called.  The scan of the chain therefore returns the empty result,
contradicting both the claim and the repository's own requirement document
("return all Java files that indirectly implement the interfaces through
interface inheritance"). -/
theorem c1_extends_edge_not_followed :
    scan chainConfig chainFiles = ⟨0, []⟩ ∧
    "Impl.java" ∉ (scan chainConfig chainFiles).files ∧
    getExtendedInterfaces midNode = ["Base"] ∧
    implementsTargetInterface implNode "Base" chainFiles = false := by
  decide

/-- C2 counterexample: for the dotted annotation `@com.example.Service`
extraction does not record one entry equal to the full dotted path; it
records the trailing identifier `Service` and the package prefix
`com.example`, and the full path `com.example.Service` is not among the
recorded entries. -/
theorem c2_counterexample :
    getAnnotations dottedAnnNode = ["Service", "com.example"] ∧
    "com.example.Service" ∉ getAnnotations dottedAnnNode := by
  decide

/-- C2 amended: for a reference written as a dotted path `p.N` the extractor
records exactly two entries — the trailing identifier `N` followed by the
dot-joined prefix `p` — and for a bare identifier exactly the identifier
itself; this holds uniformly for annotation references and for
implements/extends references. -/
theorem c2_amended_split_extraction (n : String) (pkg : List String) :
    getAnnotations ⟨[⟨false, [⟨[n], pkg⟩]⟩], .otherDecl⟩ =
      n :: (if pkg = [] then [] else [joinDot pkg]) ∧
    getImplementedInterfaces ⟨[], .classDecl none [⟨[n], pkg⟩]⟩ =
      n :: (if pkg = [] then [] else [joinDot pkg]) ∧
    getExtendedInterfaces ⟨[], .interfaceDecl none [⟨[n], pkg⟩]⟩ =
      n :: (if pkg = [] then [] else [joinDot pkg]) := by
  cases pkg <;>
    simp [getAnnotations, getImplementedInterfaces, getExtendedInterfaces, typeNameRefs]

/-- C3: with `excludeAbstract = true`, every path in the scan result comes
from a file whose declaration exists and is not abstract; and `isAbstract`
holds exactly when an abstract modifier token is present, for class and
interface nodes alike (the second part is stated for every node, whatever
its body). -/
theorem c3_exclude_abstract :
    (∀ (cfg : ScanConfig) (files : List JavaFile) (p : String),
      cfg.excludeAbstract = true → p ∈ (scan cfg files).files →
      ∃ f ∈ files, f.path = p ∧ ∃ d, f.decl = some d ∧ isAbstract d = false) ∧
    (∀ (cfg : ScanConfig) (files : List JavaFile) (f : JavaFile) (d : DeclNode),
      cfg.excludeAbstract = true → f.decl = some d → isAbstract d = true →
      matchesFile cfg files f = false) ∧
    (∀ node : DeclNode,
      isAbstract node = true ↔ ∃ m ∈ node.classModifier, m.abstractKeyword = true) := by
  refine ⟨?_, ?_, ?_⟩
  · intro cfg files p he hp
    obtain ⟨f, hf, hpath, hm⟩ := mem_scan_files.mp hp
    obtain ⟨d, hd, hab⟩ := matchesFile_not_abstract he hm
    exact ⟨f, hf, hpath, d, hd, hab⟩
  · intro cfg files f d he hd hab
    simp [matchesFile, hd, he, hab]
  · intro node
    simp [isAbstract, List.any_eq_true]

/-- C3 witness: on a file set with an abstract and a concrete `@Service`
class, the concrete file is in the result and the theorem yields its
non-abstract declaration. -/
theorem c3_witness :
    ∃ f ∈ mixedFiles, f.path = "Ok.java" ∧
      ∃ d, f.decl = some d ∧ isAbstract d = false :=
  c3_exclude_abstract.1 svcConfig mixedFiles "Ok.java" rfl (by decide)

/-- C4: a declaration (class or interface — the node's body is arbitrary)
carrying an annotation reference with trailing identifier `n` matches
whenever some configured name has the same trailing dot-component, or
equals the reference's full dotted text exactly.  The well-formedness
hypothesis says the reference's components are dot-free, as Java
identifiers are. -/
theorem c4_annotation_match (node : DeclNode) (cfg : List String) (m : Modifier)
    (tn : TypeName) (n a : String)
    (hm : m ∈ node.classModifier) (ht : tn ∈ m.annotations)
    (hid : tn.identifier = [n])
    (hwf : ∀ p ∈ n :: tn.packageOrTypeName, '.' ∉ p.data)
    (ha : a ∈ cfg)
    (hmatch : n = lastComponent a ∨ joinDot (tn.packageOrTypeName ++ [n]) = a) :
    hasConfiguredAnnotation cfg node = true := by
  have hrecn : n ∈ typeNameRefs tn := by
    rw [typeNameRefs, hid]
    exact List.mem_append.mpr (Or.inl (by simp))
  have hn : n ∈ getAnnotations node := typeNameRefs_subset_getAnnotations hm ht hrecn
  rw [ hasConfiguredAnnotation]
  rw [if_neg (by simp only [List.isEmpty_iff]; exact List.ne_nil_of_mem ha)]
  simp only [List.any_eq_true, Bool.or_eq_true, contains_iff_mem, List.mem_map]
  rcases hmatch with hlast | hfull
  · exact ⟨n, hn, Or.inl ⟨a, ha, hlast.symm⟩⟩
  · rcases hpkg : tn.packageOrTypeName with _ | ⟨q, t⟩
    · rw [hpkg] at hfull
      simp only [List.nil_append, joinDot] at hfull
      exact ⟨n, hn, Or.inr (hfull ▸ ha)⟩
    · have hlast : lastComponent a = n := by
        rw [← hfull, hpkg]
        rw [lastComponent_joinDot ((q :: t) ++ [n]) (by simp) ?hdot]
        · exact List.getLastD_concat _ _ _
        case hdot =>
          intro x hx
          rcases List.mem_append.mp hx with h1 | h2
          · exact hwf x (List.mem_cons_of_mem n (hpkg ▸ h1))
          · simp only [List.mem_singleton] at h2
            exact h2 ▸ hwf n (by simp)
      exact ⟨n, hn, Or.inl ⟨a, ha, hlast⟩⟩

/-- C4 witness: the dotted annotation `@com.example.Service` matches the
configured full name `com.example.Service` (via the full-text disjunct). -/
theorem c4_witness :
    hasConfiguredAnnotation ["com.example.Service"] dottedAnnNode = true :=
  c4_annotation_match dottedAnnNode ["com.example.Service"]
    ⟨false, [⟨["Service"], ["com", "example"]⟩]⟩ ⟨["Service"], ["com", "example"]⟩
    "Service" "com.example.Service"
    (by decide) (by decide) (by decide) (by decide) (by decide)
    (Or.inr (by decide))

/-- C5 counterexample: with two files declaring the simple name `Foo`
discovered in the order `b/Foo.java`, `a/Foo.java`, lookup returns the
declaration from `b/Foo.java`, although `a/Foo.java` is the
lexicographically-first candidate path — the resolver picks discovery
order, not lexicographic order. -/
theorem c5_counterexample :
    findClassDeclaration "Foo" dupFiles = some (fooNodeB, "b/Foo.java") ∧
    strLtb "a/Foo.java" "b/Foo.java" = true ∧
    (∃ f ∈ dupFiles, f.path = "a/Foo.java" ∧
      ∃ d, f.decl = some d ∧ getTypeName d = some "Foo") := by
  decide

/-- C5 amended: lookup returns the declaration of the first file in the
discovered list order whose declaration bears the searched name; when the
discovered list is in ascending path order this is the
lexicographically-first candidate, i.e. the returned path is bounded by
every candidate's path. -/
theorem c5_amended_first_in_order :
    ∀ (files : List JavaFile) (name : String) (d : DeclNode) (p : String),
      List.Pairwise (fun f g => strLeb f.path.data g.path.data = true) files →
      findClassDeclaration name files = some (d, p) →
      (∃ f ∈ files, f.path = p ∧ f.decl = some d ∧ getTypeName d = some name) ∧
      ∀ f ∈ files, (∃ d', f.decl = some d' ∧ getTypeName d' = some name) →
        strLeb p.data f.path.data = true := by
  intro files
  induction files with
  | nil => intro name d p _ h; simp [findClassDeclaration] at h
  | cons f rest ih =>
    intro name d p hpw h
    obtain ⟨hall, hrest⟩ := List.pairwise_cons.mp hpw
    simp only [findClassDeclaration] at h
    rcases hfd : f.decl with _ | node
    · simp only [hfd] at h
      obtain ⟨hex, hbound⟩ := ih name d p hrest h
      refine ⟨?_, ?_⟩
      · obtain ⟨g, hg, hrest2⟩ := hex
        exact ⟨g, List.mem_cons_of_mem f hg, hrest2⟩
      · intro g hg hcand
        rcases List.mem_cons.mp hg with rfl | hgr
        · obtain ⟨d', hd', _⟩ := hcand
          rw [hfd] at hd'
          exact absurd hd' (by simp)
        · exact hbound g hgr hcand
    · simp only [hfd] at h
      rcases hg : getTypeName node with _ | tn
      · simp only [hg] at h
        obtain ⟨hex, hbound⟩ := ih name d p hrest h
        refine ⟨?_, ?_⟩
        · obtain ⟨g, hgm, hrest2⟩ := hex
          exact ⟨g, List.mem_cons_of_mem f hgm, hrest2⟩
        · intro g hgm hcand
          rcases List.mem_cons.mp hgm with rfl | hgr
          · obtain ⟨d', hd', htn⟩ := hcand
            rw [hfd] at hd'
            obtain rfl := Option.some.injEq .. ▸ hd'
            rw [hg] at htn
            exact absurd htn (by simp)
          · exact hbound g hgr hcand
      · simp only [hg] at h
        by_cases htc : tn = name
        · rw [if_pos htc] at h
          simp only [Option.some.injEq, Prod.mk.injEq] at h
          obtain ⟨rfl, rfl⟩ := h
          refine ⟨⟨f, by simp, rfl, hfd, htc ▸ hg⟩, ?_⟩
          intro g hgm _
          rcases List.mem_cons.mp hgm with rfl | hgr
          · exact strLeb_refl _
          · exact hall g hgr
        · rw [if_neg htc] at h
          obtain ⟨hex, hbound⟩ := ih name d p hrest h
          refine ⟨?_, ?_⟩
          · obtain ⟨g, hgm, hrest2⟩ := hex
            exact ⟨g, List.mem_cons_of_mem f hgm, hrest2⟩
          · intro g hgm hcand
            rcases List.mem_cons.mp hgm with rfl | hgr
            · obtain ⟨d', hd', htn⟩ := hcand
              rw [hfd] at hd'
              obtain rfl := Option.some.injEq .. ▸ hd'
              rw [hg] at htn
              exact absurd (Option.some.injEq .. ▸ htn) htc
            · exact hbound g hgr hcand

/-- C5 witness: on the ascending-order variant of the duplicate-name file
set, lookup of `Foo` yields the candidate whose path bounds every
candidate path. -/
theorem c5_witness :
    (∃ f ∈ sortedDupFiles, f.path = "a/Foo.java" ∧ f.decl = some fooNodeA ∧
      getTypeName fooNodeA = some "Foo") ∧
    ∀ f ∈ sortedDupFiles, (∃ d', f.decl = some d' ∧ getTypeName d' = some "Foo") →
      strLeb "a/Foo.java".data f.path.data = true :=
  c5_amended_first_in_order sortedDupFiles "Foo" fooNodeA "a/Foo.java"
    (by decide) (by decide)

/-- C6: the resolver terminates on every reference graph — with the fuel
used by the top-level call the fuelled recursion always completes — and on
the direct two-interface cycle `X extends Y`, `Y extends X` it returns
false for every target not named in the one-hop reference lists of `X` or
`Y`. -/
theorem c6_termination :
    (∀ (files : List JavaFile) (node : DeclNode) (target : String),
      (implementsTargetInterfaceFuel (files.length + 2) node target files []).isSome = true) ∧
    (∀ target : String,
      target ∉ getExtendedInterfaces cycX ++ getExtendedInterfaces cycY →
      implementsTargetInterface cycX target cycFiles = false ∧
      implementsTargetInterface cycY target cycFiles = false) := by
  constructor
  · exact fun files node target => implTIFuel_top_isSome files node target
  · intro target _
    constructor
    · rw [implementsTargetInterface,
        show cycFiles.length + 2 = 3 + 1 from rfl,
        implTIFuel_no_edges 3 cycX target cycFiles rfl]
    · rw [implementsTargetInterface,
        show cycFiles.length + 2 = 3 + 1 from rfl,
        implTIFuel_no_edges 3 cycY target cycFiles rfl]

/-- C6 witness: termination and the false answer at the concrete cycle for
the target `Other`, which is in neither one-hop list. -/
theorem c6_witness :
    (implementsTargetInterfaceFuel (cycFiles.length + 2) cycX "Other" cycFiles []).isSome
      = true ∧
    implementsTargetInterface cycX "Other" cycFiles = false :=
  ⟨c6_termination.1 cycFiles cycX "Other",
   (c6_termination.2 "Other" (by decide)).1⟩

/-- C7: for a fixed file set and fixed `excludeAbstract`, inserting one
entry anywhere into the configured annotation list or the configured
interface list never removes a path from the result set. -/
theorem c7_monotonicity :
    ∀ (files : List JavaFile) (e : Bool) (a₁ a₂ i₁ i₂ : List String) (x p : String),
      (p ∈ (scan ⟨a₁ ++ a₂, i₁ ++ i₂, e⟩ files).files →
        p ∈ (scan ⟨a₁ ++ x :: a₂, i₁ ++ i₂, e⟩ files).files) ∧
      (p ∈ (scan ⟨a₁ ++ a₂, i₁ ++ i₂, e⟩ files).files →
        p ∈ (scan ⟨a₁ ++ a₂, i₁ ++ x :: i₂, e⟩ files).files) := by
  intro files e a₁ a₂ i₁ i₂ x p
  constructor
  · intro hp
    obtain ⟨f, hf, hpath, hm⟩ := mem_scan_files.mp hp
    exact mem_scan_files.mpr ⟨f, hf, hpath, matchesFile_mono_ann hm⟩
  · intro hp
    obtain ⟨f, hf, hpath, hm⟩ := mem_scan_files.mp hp
    exact mem_scan_files.mpr ⟨f, hf, hpath, matchesFile_mono_int hm⟩

/-- C7 witness: a matched file stays matched after appending an annotation
name and after appending an interface name. -/
theorem c7_witness :
    "A.java" ∈ (scan ⟨["Svc"] ++ ["Extra"], [] ++ [], true⟩ monoFiles).files ∧
    "A.java" ∈ (scan ⟨["Svc"] ++ [], [] ++ ["I"], true⟩ monoFiles).files :=
  ⟨(c7_monotonicity monoFiles true ["Svc"] [] [] [] "Extra" "A.java").1 (by decide),
   (c7_monotonicity monoFiles true ["Svc"] [] [] [] "I" "A.java").2 (by decide)⟩

/-- C8: the claim requires every listed path to be absolute.  The code
reports discovered paths verbatim and never resolves them against the
working directory, so a scan rooted at the default relative
`./src/main/java` lists relative paths: evaluating the scan on the file
discovered at `src/main/java/A.java` yields exactly that relative path
(the sortedness, count and duplicate-freeness parts of the contract do
hold on this output). -/
theorem c8_relative_path_output :
    scan svcConfig relFiles = ⟨1, ["src/main/java/A.java"]⟩ ∧
    isAbsolutePath "src/main/java/A.java" = false := by
  decide

/-- C9: with both criteria lists empty the scan result is empty for every
file set and either abstract-exclusion setting: no criteria means no
matches. -/
theorem c9_empty_criteria (e : Bool) (files : List JavaFile) :
    scan ⟨[], [], e⟩ files = ⟨0, []⟩ := by
  have hm : ∀ f ∈ files, ¬(matchesFile ⟨[], [], e⟩ files f = true) := by
    intro f _
    simp only [matchesFile]
    rcases f.decl with _ | node
    · simp
    · split
      · simp
      · simp [ hasConfiguredAnnotation, hasConfiguredInterface]
  rw [scan, List.filter_eq_nil_iff.mpr hm]
  rfl

/-- C10: when a declaration carries a dotted annotation whose prefix `p` is
itself a configured name's full text, the matcher reports a match, because
extraction records the prefix as a standalone entry. -/
theorem c10_prefix_match (node : DeclNode) (cfg : List String) (m : Modifier)
    (tn : TypeName) (p : String)
    (hm : m ∈ node.classModifier) (ht : tn ∈ m.annotations)
    (hpkg : tn.packageOrTypeName ≠ [])
    (hp : p = joinDot tn.packageOrTypeName)
    (hcfg : p ∈ cfg) :
    hasConfiguredAnnotation cfg node = true := by
  subst hp
  have hrec : joinDot tn.packageOrTypeName ∈ typeNameRefs tn := by
    rw [typeNameRefs]
    rcases hq : tn.packageOrTypeName with _ | ⟨q, t⟩
    · exact absurd hq hpkg
    · exact List.mem_append.mpr (Or.inr (by simp))
  have hpa : joinDot tn.packageOrTypeName ∈ getAnnotations node :=
    typeNameRefs_subset_getAnnotations hm ht hrec
  rw [ hasConfiguredAnnotation]
  rw [if_neg (by simp only [List.isEmpty_iff]; exact List.ne_nil_of_mem hcfg)]
  simp only [List.any_eq_true, Bool.or_eq_true, contains_iff_mem]
  exact ⟨joinDot tn.packageOrTypeName, hpa, Or.inr hcfg⟩

/-- C10 witness: `@com.example.Service` matches the configured name
`com.example`, the recorded package prefix. -/
theorem c10_witness :
    hasConfiguredAnnotation ["com.example"] dottedAnnNode = true :=
  c10_prefix_match dottedAnnNode ["com.example"]
    ⟨false, [⟨["Service"], ["com", "example"]⟩]⟩ ⟨["Service"], ["com", "example"]⟩
    "com.example"
    (by decide) (by decide) (by decide) (by decide) (by decide)

end JavaScan
